import Mathlib

/-!
Shallow embedding of `src/xmlrecords/src/xmlrecords.py`.

Python dictionaries are modelled as insertion-ordered association lists
`List (String × String)`; `d[k] = v` keeps the position of an existing key
and overwrites its value, otherwise appends.  Python string helpers
(`str.strip`, `str.rpartition`) are modelled by structurally recursive
functions over the character list of the string (ASCII whitespace).
`ElementTree.Element` is modelled by the inductive `Element`; the XPath
fragment actually used by the code (a `/`-join of `\x7bns\x7dtag` steps built
from plain tag names, with the `*` namespace wildcard) is modelled by
`segMatches` / `selectPath`, following CPython's `ElementPath` semantics.
Exceptions are modelled with `Except`.
-/

/-- Model of a Python `dict` with string keys and values: an insertion-ordered
association list.  A well-formed dict has no duplicate keys (`DictWF`). -/
abbrev Dict := List (String × String)

def dictKeys (d : Dict) : List String := d.map Prod.fst

/-- Well-formedness of a `Dict`: its keys are pairwise distinct. -/
def DictWF (d : Dict) : Prop := (dictKeys d).Nodup

/-- Python `d[k] = v`: overwrite in place when `k` is already present,
otherwise append at the end. -/
def dictInsert (d : Dict) (k v : String) : Dict :=
  if (dictKeys d).contains k then
    d.map (fun p => if p.1 = k then (k, v) else p)
  else d ++ [(k, v)]

/-- Python `d1.update(d2)`: insert the entries of `d2` left to right. -/
def dictUpdate (d1 d2 : Dict) : Dict :=
  d2.foldl (fun d p => dictInsert d p.1 p.2) d1

/-- Python dict literal/comprehension built from a list of pairs. -/
def dictOfList (l : List (String × String)) : Dict := dictUpdate [] l

/-- Python `set(d1.keys()).intersection(set(d2.keys()))`, as the sublist of
`d1`'s keys that also occur in `d2`. -/
def commonKeys (d1 d2 : Dict) : List String :=
  (dictKeys d1).filter (fun k => (dictKeys d2).contains k)

/-- Embedding of `_update_dict_nocollision(d1, d2)`.  The Python function
mutates `d1` via `d1.update(d2)` and then raises when the merged length is
not `len(d1) + len(d2)`; the result is the state of `d1` after the call
together with the key set carried by the raised `XMLParsingError`, if any.
Note that the Python code computes `common_keys` from the *already updated*
`d1`. -/
def updateDictNocollision (d1 d2 : Dict) : Dict × Option (List String) :=
  let expectedLength := d1.length + d2.length
  let d := dictUpdate d1 d2
  if d.length = expectedLength then (d, none)
  else (d, some (commonKeys d d2))

/-- Errors raised by the parsing pipeline: `XMLParsingError` on key
collisions (carrying the reported key set) and the `AssertionError` of
`_process_tag` (carrying the offending tag). -/
inductive XMLErr where
  | collision (keys : List String)
  | assertionFail (tag : String)
deriving DecidableEq

/-- `_update_dict_nocollision` seen as a fallible computation: `.ok` with the
merged dict on success, `.error` with the reported keys on collision. -/
def mergeNoCollision (d1 d2 : Dict) : Except XMLErr Dict :=
  match updateDictNocollision d1 d2 with
  | (d, none) => .ok d
  | (_, some ks) => .error (.collision ks)

/-- Python `str.strip` whitespace (ASCII part of it). -/
def isSpace (c : Char) : Bool :=
  c = ' ' || c = '\t' || c = '\n' || c = '\r' || c = '\x0b' || c = '\x0c'

/-- Python `s.strip()`: drop leading and trailing whitespace. -/
def pyStrip (s : String) : String :=
  (((s.data.dropWhile isSpace).reverse.dropWhile isSpace).reverse).asString

/-- Python `s.rpartition("\x7d")[2]`: the part of `s` after the last closing
brace, or all of `s` when there is none. -/
def afterLastClose (s : String) : String :=
  ((s.data.reverse.takeWhile (fun c => c ≠ '\x7d')).reverse).asString

/-- Embedding of `_process_tag(tag, remove_namespace)`: strip a leading
`\x7bnamespace\x7d` qualifier when requested, raising `AssertionError` if a brace
survives; with `remove_namespace = False` the tag is returned unchanged. -/
def processTag (tag : String) (removeNamespace : Bool) : Except XMLErr String :=
  if removeNamespace then
    let t := afterLastClose tag
    if t.data.any (fun c => c = '\x7b' || c = '\x7d') then .error (.assertionFail t)
    else .ok t
  else .ok tag

/-- Model of `xml.etree.ElementTree.Element`: a tag, optional text content,
an insertion-ordered attribute dict, and an ordered list of children. -/
inductive Element where
  | mk (tag : String) (text : Option String) (attrib : List (String × String))
       (children : List Element)

def Element.tag : Element → String
  | .mk t _ _ _ => t

def Element.text : Element → Option String
  | .mk _ t _ _ => t

def Element.attrib : Element → List (String × String)
  | .mk _ _ a _ => a

def Element.children : Element → List Element
  | .mk _ _ _ c => c

/-- Key of an attribute entry: `k if prefix is None else prefix + sep + k`. -/
def attrKey (pfx : Option String) (sep k : String) : String :=
  match pfx with
  | none => k
  | some p => p ++ sep ++ k

/-- The text block of `_update_dict_from_node` (lines 46-50): emit one
entry for the node's text when present and non-empty after optional
stripping, keyed by the prefix if present, else the processed tag. -/
def textStep (d : Dict) (tag : String) (txt : Option String) (pfx : Option String)
    (strip rmNamespace : Bool) : Except XMLErr Dict :=
  match txt with
  | none => pure d
  | some t =>
    let tx := if strip then pyStrip t else t
    if 0 < tx.length then
      (match pfx with
       | none => processTag tag rmNamespace
       | some p => pure p).bind
        (fun k => mergeNoCollision d [(k, tx)])
    else pure d

/-- The attribute block of `_update_dict_from_node` (lines 51-54): merge
all attribute entries, keys prefixed when a prefix is present, values
verbatim. -/
def attribStep (d : Dict) (attrib : List (String × String)) (pfx : Option String)
    (sep : String) : Except XMLErr Dict :=
  if 0 < attrib.length then
    mergeNoCollision d (dictOfList (attrib.map (fun kv => (attrKey pfx sep kv.1, kv.2))))
  else pure d

mutual
/-- Embedding of `_update_dict_from_node(d, node, prefix, sep, max_depth,
strip, rm_namespace, skip_child_tag)`: flatten `node` into the accumulating
dict `d` — text entry, then attribute entries, then (depth permitting) the
children — raising on key collisions. -/
def updateDictFromNode (d : Dict) (node : Element) (pfx : Option String) (sep : String)
    (maxDepth : Option Nat) (strip rmNamespace : Bool) (skipChildTag : Option String) :
    Except XMLErr Dict :=
  match node with
  | .mk tag txt attrib children =>
    (textStep d tag txt pfx strip rmNamespace).bind (fun d1 =>
      (attribStep d1 attrib pfx sep).bind (fun d2 =>
        if (maxDepth.isNone || 0 < maxDepth.getD 0) && 0 < children.length then
          updateDictFromChildren d2 children pfx sep (maxDepth.map (fun n => n - 1))
            strip rmNamespace skipChildTag
        else pure d2))

/-- The `for child in node` loop of `_update_dict_from_node` (lines 57-61):
each child's tag is processed first (so `_process_tag` may raise even for a
skipped child), the child is skipped iff that tag equals `skip_child_tag`,
and the recursive call always passes `skip_child_tag = None`. -/
def updateDictFromChildren (d : Dict) (children : List Element) (pfx : Option String)
    (sep : String) (maxDepth : Option Nat) (strip rmNamespace : Bool)
    (skipChildTag : Option String) : Except XMLErr Dict :=
  match children with
  | [] => pure d
  | child :: rest =>
    (processTag child.tag rmNamespace).bind (fun ctag =>
      (if skipChildTag ≠ some ctag then
        updateDictFromNode d child (pfx.map (fun p => p ++ sep ++ ctag)) sep maxDepth
          strip rmNamespace none
      else pure d).bind (fun d' =>
        updateDictFromChildren d' rest pfx sep maxDepth strip rmNamespace skipChildTag))
end

/-- Python `sep.join(chunks)`. -/
def joinSep (sep : String) : List String → String
  | [] => ""
  | [c] => c
  | c :: cs => c ++ sep ++ joinSep sep cs

/-- Embedding of `_list_to_prefix(chunks, sep)`. -/
def listToPfx (chunks : List String) (sep : String) : Option String :=
  if 0 < chunks.length then some (joinSep sep chunks) else none

/-- One step `\x7bns\x7dseg` of the paths built by `_list_to_path`, matched
against a node tag following CPython `ElementPath`: the `*` namespace is a
wildcard (tag equals `seg` or ends with `\x7dseg`), the empty namespace means
an unqualified tag, and any other namespace requires the exact qualified
tag. -/
def segMatches (ns seg tag : String) : Bool :=
  if ns = "*" then tag = seg || ("\x7d" ++ seg).data.isSuffixOf tag.data
  else if ns = "" then tag = seg
  else tag = "\x7b" ++ ns ++ "\x7d" ++ seg

/-- One path step applied to a list of context nodes: all matching children,
in document order. -/
def selectChildren (ns seg : String) (nodes : List Element) : List Element :=
  nodes.flatMap (fun n => n.children.filter (fun c => segMatches ns seg c.tag))

/-- Relative path selection, one step per segment. -/
def selectPath (ns : String) (nodes : List Element) (segs : List String) : List Element :=
  match segs with
  | [] => nodes
  | seg :: rest => selectPath ns (selectChildren ns seg nodes) rest

/-- Python `root.findall(_list_to_path(segs, ns))`. -/
def findall (root : Element) (ns : String) (segs : List String) : List Element :=
  selectPath ns [root] segs

/-- Python `root.find(_list_to_path(segs, ns))`: first match in document
order, or `None`. -/
def find (root : Element) (ns : String) (segs : List String) : Option Element :=
  (findall root ns segs).head?

/-- Body of the metadata loop of `parse`: resolve one metadata path to its
first matching node (absence is silent) and flatten it into the accumulated
metadata dict. -/
def metaStep (tree : Element) (d : Dict) (mPath : List String) (metaPfx : Bool)
    (sep : String) (metaMaxDepth : Option Nat) (stripText : Bool) (ns : String)
    (rmNamespace : Bool) : Except XMLErr Dict :=
  match find tree ns mPath with
  | none => pure d
  | some mNode =>
    updateDictFromNode d mNode (if metaPfx then listToPfx mPath sep else none) sep
      metaMaxDepth stripText rmNamespace none

/-- The whole metadata loop of `parse`, starting from the empty dict. -/
def parseMeta (tree : Element) (metaPaths : List (List String)) (metaPfx : Bool)
    (sep : String) (metaMaxDepth : Option Nat) (stripText : Bool) (ns : String)
    (rmNamespace : Bool) : Except XMLErr Dict :=
  metaPaths.foldlM
    (fun d mPath => metaStep tree d mPath metaPfx sep metaMaxDepth stripText ns rmNamespace) []

/-- Embedding of `parse`, taking the already-parsed root element (the Python
function first runs the external `ElementTree.fromstring`).  `meta_paths =
None` is the empty list of paths. -/
def parse (tree : Element) (rowsPath : List String) (subrowTag : Option String)
    (metaPaths : List (List String)) (rowsPfx metaPfx : Bool) (sep : String)
    (rowsMaxDepth metaMaxDepth : Option Nat) (stripText : Bool) (ns : String)
    (rmNamespace : Bool) : Except XMLErr (List Dict) :=
  (parseMeta tree metaPaths metaPfx sep metaMaxDepth stripText ns rmNamespace).bind
    (fun metaD =>
      let rowNodes := findall tree ns rowsPath
      let pfx := if rowsPfx then listToPfx rowsPath sep else none
      rowNodes.foldlM
        (fun records rNode =>
          (updateDictFromNode metaD rNode pfx sep rowsMaxDepth stripText
            rmNamespace subrowTag).bind (fun rowD =>
            match subrowTag with
            | none => pure (records ++ [rowD])
            | some st =>
              (findall rNode ns [st]).foldlM
                (fun recs srNode =>
                  (updateDictFromNode rowD srNode pfx sep rowsMaxDepth stripText
                    rmNamespace none).bind (fun srD => pure (recs ++ [srD])))
                records))
        [])

/-- Effectful map over a list in `Except`, used to state the structured
form of `parse`'s row/subrow loops: one output element per input element,
in order, stopping at the first error. -/
def mapExcept {e a b : Type} (f : a → Except e b) : List a → Except e (List b)
  | [] => .ok []
  | x :: l =>
    (f x).bind (fun y => (mapExcept f l).bind (fun ys => pure (y :: ys)))

/-- Error raised by `validate`: the record index and the two key sequences
of the first mismatch. -/
inductive ValidationErr where
  | mismatch (index : Nat) (recordKeys : List String) (expectedKeys : List String)
deriving DecidableEq

/-- The `for i, r in enumerate(records)` loop of `validate`, with `i`
starting at `n`. -/
def validateFrom (n : Nat) (records : List Dict) (expectedKeys : List String) :
    Except ValidationErr Unit :=
  match records with
  | [] => .ok ()
  | r :: rest =>
    if dictKeys r ≠ expectedKeys then .error (.mismatch n (dictKeys r) expectedKeys)
    else validateFrom (n + 1) rest expectedKeys

/-- Embedding of `validate(records, expected_keys)`. -/
def validate (records : List Dict) (expectedKeys : List String) :
    Except ValidationErr Unit :=
  validateFrom 0 records expectedKeys

/-! Basic lemmas about the dict model. -/

theorem dictKeys_cons (k v : String) (l : Dict) :
    dictKeys ((k, v) :: l) = k :: dictKeys l := rfl

theorem dictKeys_append (d1 d2 : Dict) :
    dictKeys (d1 ++ d2) = dictKeys d1 ++ dictKeys d2 := List.map_append _ _ _

theorem dictKeys_dictInsert (d : Dict) (k v : String) :
    dictKeys (dictInsert d k v) = if k ∈ dictKeys d then dictKeys d else dictKeys d ++ [k] := by
  unfold dictInsert
  by_cases h : k ∈ dictKeys d
  · rw [if_pos (by simpa [List.elem_iff] using h), if_pos h]
    simp only [dictKeys, List.map_map]
    apply List.map_congr_left
    intro p _
    by_cases hp : p.1 = k
    · simp [hp]
    · simp [hp]
  · rw [if_neg (by simpa [List.elem_iff] using h), if_neg h]
    simp [dictKeys]

theorem length_dictInsert (d : Dict) (k v : String) :
    (dictInsert d k v).length = if k ∈ dictKeys d then d.length else d.length + 1 := by
  unfold dictInsert
  by_cases h : k ∈ dictKeys d
  · rw [if_pos (by simpa [List.elem_iff] using h), if_pos h, List.length_map]
  · rw [if_neg (by simpa [List.elem_iff] using h), if_neg h, List.length_append]; rfl

theorem mem_dictKeys_dictInsert (d : Dict) (k v a : String) :
    a ∈ dictKeys (dictInsert d k v) ↔ a ∈ dictKeys d ∨ a = k := by
  rw [dictKeys_dictInsert]
  by_cases h : k ∈ dictKeys d
  · rw [if_pos h]
    constructor
    · exact Or.inl
    · rintro (ha | rfl)
      · exact ha
      · exact h
  · rw [if_neg h]
    simp

theorem dictInsert_of_not_mem (d : Dict) (k v : String) (h : k ∉ dictKeys d) :
    dictInsert d k v = d ++ [(k, v)] := by
  unfold dictInsert
  rw [if_neg (by simpa [List.elem_iff] using h)]

theorem dictUpdate_nil (d : Dict) : dictUpdate d [] = d := rfl

theorem dictUpdate_cons (d1 : Dict) (k v : String) (l : Dict) :
    dictUpdate d1 ((k, v) :: l) = dictUpdate (dictInsert d1 k v) l := rfl

/-- Python `d1.update(d2)` with disjoint key sets is concatenation. -/
theorem dictUpdate_append_of_disjoint :
    ∀ (d2 d1 : Dict), (dictKeys d2).Nodup → (∀ k ∈ dictKeys d2, k ∉ dictKeys d1) →
      dictUpdate d1 d2 = d1 ++ d2
  | [], d1, _, _ => by simp [dictUpdate_nil]
  | (k, v) :: l, d1, hnd, hdisj => by
    rw [dictKeys_cons] at hnd hdisj
    have hk : k ∉ dictKeys d1 := hdisj k (List.mem_cons_self _ _)
    have hnd' : (dictKeys l).Nodup := hnd.of_cons
    have hkl : k ∉ dictKeys l := (List.nodup_cons.mp hnd).1
    have hdisj' : ∀ a ∈ dictKeys l, a ∉ dictKeys (d1 ++ [(k, v)]) := by
      intro a ha
      rw [dictKeys_append]
      intro hmem
      rcases List.mem_append.mp hmem with h1 | h2
      · exact hdisj a (List.mem_cons_of_mem _ ha) h1
      · rcases List.mem_singleton.mp (by simpa [dictKeys] using h2) with rfl
        exact hkl ha
    rw [dictUpdate_cons, dictInsert_of_not_mem d1 k v hk,
      dictUpdate_append_of_disjoint l (d1 ++ [(k, v)]) hnd' hdisj',
      List.append_assoc]
    rfl

/-- The length of a Python dict update, when the added dict is well formed:
the original length plus the number of added entries with genuinely new
keys. -/
theorem length_dictUpdate :
    ∀ (d2 d1 : Dict), (dictKeys d2).Nodup →
      (dictUpdate d1 d2).length
        = d1.length + (d2.filter (fun p => !(dictKeys d1).contains p.1)).length
  | [], d1, _ => by simp [dictUpdate]
  | (k, v) :: l, d1, hnd => by
    rw [dictKeys_cons] at hnd
    have hkl : k ∉ dictKeys l := (List.nodup_cons.mp hnd).1
    have ih := length_dictUpdate l (dictInsert d1 k v) hnd.of_cons
    have hfilter :
        l.filter (fun p => !(dictKeys (dictInsert d1 k v)).contains p.1)
          = l.filter (fun p => !(dictKeys d1).contains p.1) := by
      apply List.filter_congr
      intro p hp
      have hpk : p.1 ≠ k := fun he => hkl (he ▸ List.mem_map_of_mem Prod.fst hp)
      have hco : ((dictKeys (dictInsert d1 k v)).contains p.1)
          = ((dictKeys d1).contains p.1) := by
        by_cases hc : p.1 ∈ dictKeys d1
        · simp [List.elem_eq_mem, hc, mem_dictKeys_dictInsert]
        · simp [List.elem_eq_mem, hc, mem_dictKeys_dictInsert, hpk]
      rw [hco]
    rw [dictUpdate_cons, ih, length_dictInsert, hfilter, List.filter_cons]
    by_cases h : k ∈ dictKeys d1
    · rw [if_pos h]
      simp [List.elem_eq_mem, h]
    · rw [if_neg h]
      simp [List.elem_eq_mem, h]
      omega

/-! Lookup lemmas for the dict model. -/

theorem lookup_eq_none_of_not_mem :
    ∀ (d : Dict) (k : String), k ∉ dictKeys d → d.lookup k = none
  | [], _, _ => rfl
  | p :: rest, k, h => by
    simp only [dictKeys, List.map_cons, List.mem_cons] at h
    push_neg at h
    have hb : (k == p.1) = false := beq_eq_false_iff_ne.mpr h.1
    simp [List.lookup, hb, lookup_eq_none_of_not_mem rest k (by simpa [dictKeys] using h.2)]

theorem lookup_append_left (d1 d2 : Dict) (k : String) (h : k ∈ dictKeys d1) :
    (d1 ++ d2).lookup k = d1.lookup k := by
  induction d1 with
  | nil => simp [dictKeys] at h
  | cons p rest ih =>
    by_cases hk : k = p.1
    · simp [List.lookup, beq_iff_eq, hk]
    · have hb : (k == p.1) = false := beq_eq_false_iff_ne.mpr hk
      simp only [dictKeys, List.map_cons, List.mem_cons] at h
      rcases h with h | h
      · exact absurd h hk
      · simp [List.lookup, hb, ih (by simpa [dictKeys] using h)]

theorem lookup_append_right (d1 d2 : Dict) (k : String) (h : k ∉ dictKeys d1) :
    (d1 ++ d2).lookup k = d2.lookup k := by
  induction d1 with
  | nil => rfl
  | cons p rest ih =>
    simp only [dictKeys, List.map_cons, List.mem_cons] at h
    push_neg at h
    have hb : (k == p.1) = false := beq_eq_false_iff_ne.mpr h.1
    simp [List.lookup, hb, ih (by simpa [dictKeys] using h.2)]

theorem lookup_mapOverwrite (a v k : String) :
    ∀ d : Dict,
      (d.map (fun p => if p.1 = a then (a, v) else p)).lookup k
        = if k = a ∧ a ∈ dictKeys d then some v else d.lookup k
  | [] => by simp [dictKeys]
  | p :: rest => by
    have ih := lookup_mapOverwrite a v k rest
    by_cases hp : p.1 = a
    · simp only [List.map_cons, if_pos hp]
      by_cases hk : k = a
      · subst hk
        have hm : k ∈ dictKeys (p :: rest) := by
          simp only [dictKeys, List.map_cons, List.mem_cons]
          exact Or.inl hp.symm
        simp [List.lookup, hm]
      · have h1 : (k == a) = false := beq_eq_false_iff_ne.mpr hk
        have h2 : (k == p.1) = false := beq_eq_false_iff_ne.mpr (hp ▸ hk)
        simp only [List.lookup, h1, h2, ih]
        rw [if_neg (fun hc => hk hc.1), if_neg (fun hc => hk hc.1)]
    · simp only [List.map_cons, if_neg hp]
      by_cases hk : k = p.1
      · subst hk
        simp [List.lookup, hp]
      · have h2 : (k == p.1) = false := beq_eq_false_iff_ne.mpr hk
        simp only [List.lookup, h2, ih]
        by_cases hc : k = a ∧ a ∈ dictKeys rest
        · rw [if_pos hc, if_pos ?_]
          refine ⟨hc.1, ?_⟩
          simp only [dictKeys, List.map_cons, List.mem_cons]
          exact Or.inr (by simpa [dictKeys] using hc.2)
        · rw [if_neg hc, if_neg ?_]
          intro hc2
          apply hc
          refine ⟨hc2.1, ?_⟩
          rcases (by simpa [dictKeys] using hc2.2 : a = p.1 ∨ a ∈ dictKeys rest) with h | h
          · exact absurd h.symm hp
          · exact h

/-- Looking a key up after a Python `d[a] = v` assignment. -/
theorem lookup_dictInsert (d : Dict) (a v k : String) :
    (dictInsert d a v).lookup k = if k = a then some v else d.lookup k := by
  unfold dictInsert
  by_cases h : a ∈ dictKeys d
  · rw [if_pos (by simpa [List.elem_iff] using h), lookup_mapOverwrite]
    by_cases hk : k = a
    · rw [if_pos ⟨hk, h⟩, if_pos hk]
    · rw [if_neg (fun hc => hk hc.1), if_neg hk]
  · rw [if_neg (by simpa [List.elem_iff] using h)]
    by_cases hk : k = a
    · subst hk
      rw [lookup_append_right _ _ _ h, if_pos rfl]
      simp [List.lookup]
    · rw [if_neg hk]
      by_cases hm : k ∈ dictKeys d
      · exact lookup_append_left _ _ _ hm
      · rw [lookup_append_right _ _ _ hm, lookup_eq_none_of_not_mem _ _ hm]
        have hb : (k == a) = false := beq_eq_false_iff_ne.mpr hk
        simp [List.lookup, hb]

/-- Looking a key up after a Python `d1.update(d2)`: the value from `d2`
wins, otherwise the original value survives. -/
theorem lookup_dictUpdate :
    ∀ (d2 d1 : Dict), (dictKeys d2).Nodup → ∀ k : String,
      (dictUpdate d1 d2).lookup k
        = match d2.lookup k with
          | some v => some v
          | none => d1.lookup k
  | [], d1, _, k => by simp [dictUpdate, List.lookup]
  | (a, w) :: l, d1, hnd, k => by
    rw [dictKeys_cons] at hnd
    have ih := lookup_dictUpdate l (dictInsert d1 a w) hnd.of_cons k
    rw [dictUpdate_cons, ih]
    by_cases hk : k = a
    · subst hk
      have hnone : l.lookup k = none :=
        lookup_eq_none_of_not_mem l k (List.nodup_cons.mp hnd).1
      simp [List.lookup, hnone, lookup_dictInsert]
    · have h2 : (k == a) = false := beq_eq_false_iff_ne.mpr hk
      simp only [List.lookup, h2]
      cases hl : l.lookup k
      · simp [lookup_dictInsert, hk]
      · simp

/-! Well-formedness lemmas. -/

theorem dictWF_dictInsert (d : Dict) (k v : String) (h : DictWF d) :
    DictWF (dictInsert d k v) := by
  unfold DictWF at *
  rw [dictKeys_dictInsert]
  by_cases hm : k ∈ dictKeys d
  · rwa [if_pos hm]
  · rw [if_neg hm]
    simp only [List.nodup_append, List.nodup_singleton, true_and]
    refine ⟨h, ?_⟩
    intro a ha hb
    simp only [List.mem_singleton] at hb
    exact hm (hb ▸ ha)

theorem dictWF_dictUpdate : ∀ (d2 d1 : Dict), DictWF d1 → DictWF (dictUpdate d1 d2)
  | [], _, h => h
  | (k, v) :: l, d1, h =>
    dictWF_dictUpdate l (dictInsert d1 k v) (dictWF_dictInsert d1 k v h)

theorem dictWF_dictOfList (l : List (String × String)) : DictWF (dictOfList l) :=
  dictWF_dictUpdate l [] List.nodup_nil

/-- A Python dict comprehension over pairs with distinct keys keeps the
pairs as they are. -/
theorem dictOfList_of_nodup (l : List (String × String)) (h : (l.map Prod.fst).Nodup) :
    dictOfList l = l := by
  unfold dictOfList
  rw [dictUpdate_append_of_disjoint l [] h (by intro k _; simp [dictKeys])]
  rfl

theorem length_filter_eq_iff {α : Type} (l : List α) (p : α → Bool) :
    (l.filter p).length = l.length ↔ ∀ a ∈ l, p a := by
  constructor
  · intro h a ha
    by_contra hp
    have h1 : (l.filter p).length < l.length :=
      List.length_filter_lt_length_iff_exists.mpr ⟨a, ha, by simp [hp]⟩
    omega
  · intro h
    rw [List.filter_eq_self.mpr h]

/-! Characterization of the collision-safe merge. -/

theorem updateDictNocollision_fst (d1 d2 : Dict) :
    (updateDictNocollision d1 d2).1 = dictUpdate d1 d2 := by
  unfold updateDictNocollision
  by_cases h : (dictUpdate d1 d2).length = d1.length + d2.length <;> simp [h]

/-- The length test of `_update_dict_nocollision` passes exactly when the
two key sets are disjoint. -/
theorem updateDictNocollision_snd_eq_none_iff (d1 d2 : Dict)
    (hnd2 : (dictKeys d2).Nodup) :
    (updateDictNocollision d1 d2).2 = none ↔ ∀ k ∈ dictKeys d2, k ∉ dictKeys d1 := by
  have key : ((dictUpdate d1 d2).length = d1.length + d2.length)
      ↔ ∀ k ∈ dictKeys d2, k ∉ dictKeys d1 := by
    rw [length_dictUpdate d2 d1 hnd2]
    have hle : (d2.filter fun p => !(dictKeys d1).contains p.1).length ≤ d2.length :=
      List.length_filter_le _ _
    constructor
    · intro h k hk
      have hlen : (d2.filter fun p => !(dictKeys d1).contains p.1).length = d2.length := by
        omega
      rw [length_filter_eq_iff] at hlen
      obtain ⟨p, hp, rfl⟩ := List.mem_map.mp hk
      have hpd := hlen p hp
      simpa [List.elem_eq_mem] using hpd
    · intro h
      have hall : ∀ p ∈ d2, (!(dictKeys d1).contains p.1) = true := by
        intro p hp
        simp only [Bool.not_eq_true', List.elem_eq_mem, decide_eq_false_iff_not]
        exact h p.1 (List.mem_map_of_mem Prod.fst hp)
      rw [(length_filter_eq_iff d2 _).mpr hall]
  unfold updateDictNocollision
  by_cases h : (dictUpdate d1 d2).length = d1.length + d2.length
  · simpa [h] using key.mp h
  · simp only [if_neg h]
    constructor
    · intro hc
      exact absurd hc (by simp)
    · intro hd
      exact absurd (key.mpr hd) h

theorem updateDictNocollision_of_disjoint (d1 d2 : Dict)
    (hnd2 : (dictKeys d2).Nodup) (hdisj : ∀ k ∈ dictKeys d2, k ∉ dictKeys d1) :
    updateDictNocollision d1 d2 = (d1 ++ d2, none) := by
  have h2 := (updateDictNocollision_snd_eq_none_iff d1 d2 hnd2).mpr hdisj
  have h1 := updateDictNocollision_fst d1 d2
  rw [dictUpdate_append_of_disjoint d2 d1 hnd2 hdisj] at h1
  cases he : updateDictNocollision d1 d2 with
  | mk a b =>
    rw [he] at h1 h2
    simp only at h1 h2
    rw [h1, h2]

theorem mergeNoCollision_of_disjoint (d1 d2 : Dict)
    (hnd2 : (dictKeys d2).Nodup) (hdisj : ∀ k ∈ dictKeys d2, k ∉ dictKeys d1) :
    mergeNoCollision d1 d2 = .ok (d1 ++ d2) := by
  unfold mergeNoCollision
  rw [updateDictNocollision_of_disjoint d1 d2 hnd2 hdisj]

/-- A successful `_update_dict_nocollision` call means the key sets were
disjoint and the result is plain concatenation. -/
theorem mergeNoCollision_ok_elim (d1 d2 d' : Dict) (hnd2 : (dictKeys d2).Nodup)
    (h : mergeNoCollision d1 d2 = .ok d') :
    (∀ k ∈ dictKeys d2, k ∉ dictKeys d1) ∧ d' = d1 ++ d2 := by
  by_cases hd : ∀ k ∈ dictKeys d2, k ∉ dictKeys d1
  · rw [mergeNoCollision_of_disjoint d1 d2 hnd2 hd] at h
    exact ⟨hd, (Except.ok.inj h).symm⟩
  · exfalso
    have hs : (updateDictNocollision d1 d2).2 ≠ none := by
      intro hnone
      exact hd ((updateDictNocollision_snd_eq_none_iff d1 d2 hnd2).mp hnone)
    unfold mergeNoCollision at h
    cases he : updateDictNocollision d1 d2 with
    | mk a b =>
      cases b with
      | none => exact hs (by rw [he])
      | some ks =>
        rw [he] at h
        exact Except.noConfusion h

/-- A well-formed dict looks up each of its entries. -/
theorem lookup_of_mem_of_wf :
    ∀ (d : Dict) (k v : String), DictWF d → (k, v) ∈ d → d.lookup k = some v
  | [], _, _, _, hm => absurd hm (List.not_mem_nil _)
  | p :: rest, k, v, hwf, hm => by
    rcases List.mem_cons.mp hm with he | hrest
    · rw [← he]
      simp [List.lookup]
    · by_cases hk : k = p.1
      · exfalso
        have hk2 : p.1 ∈ dictKeys rest := hk ▸ List.mem_map_of_mem Prod.fst hrest
        exact (List.nodup_cons.mp hwf).1 hk2
      · have hb : (k == p.1) = false := beq_eq_false_iff_ne.mpr hk
        have hwf' : DictWF rest := (List.nodup_cons.mp hwf).2
        simp [List.lookup, hb, lookup_of_mem_of_wf rest k v hwf' hrest]

/-- C1: for flat mappings `target` and `addition`, the collision-safe merge
`_update_dict_nocollision` raises its key-collision error iff some key
occurs in both; when no key is shared it extends `target` with all entries
of `addition` (in order) and succeeds. -/
theorem mergeNoCollision_raises_iff_shared_key (d1 d2 : Dict)
    (h1 : DictWF d1) (h2 : DictWF d2) :
    ((updateDictNocollision d1 d2).2 ≠ none
        ↔ ∃ k, k ∈ dictKeys d1 ∧ k ∈ dictKeys d2)
      ∧ ((∀ k ∈ dictKeys d1, k ∉ dictKeys d2) →
        updateDictNocollision d1 d2 = (d1 ++ d2, none)) := by
  constructor
  · rw [Ne, updateDictNocollision_snd_eq_none_iff d1 d2 h2]
    push_neg
    constructor
    · rintro ⟨k, hk2, hk1⟩
      exact ⟨k, hk1, hk2⟩
    · rintro ⟨k, hk1, hk2⟩
      exact ⟨k, hk2, hk1⟩
  · intro hd
    exact updateDictNocollision_of_disjoint d1 d2 h2 (fun k hk2 hk1 => hd k hk1 hk2)

/-- Witness for C1 at a concrete disjoint pair. -/
theorem mergeNoCollision_raises_iff_shared_key_witness :
    ((updateDictNocollision [("a", "x")] [("b", "y")]).2 ≠ none
        ↔ ∃ k, k ∈ dictKeys [("a", "x")] ∧ k ∈ dictKeys [("b", "y")])
      ∧ ((∀ k ∈ dictKeys [("a", "x")], k ∉ dictKeys [("b", "y")]) →
        updateDictNocollision [("a", "x")] [("b", "y")]
          = ([("a", "x")] ++ [("b", "y")], none)) :=
  mergeNoCollision_raises_iff_shared_key _ _ (by unfold DictWF dictKeys; decide)
    (by unfold DictWF dictKeys; decide)

/-- C2 is a code bug: on `target = {"a": "1"}`, `addition = {"a": "2",
"b": "3"}` the only offending key is `"a"`, but the raised error carries
`{"a", "b"}` — the intersection is computed after `d1.update(d2)`, so it is
always the whole key set of `addition`. -/
theorem nocollision_error_keys_not_offending_keys :
    (updateDictNocollision [("a", "1")] [("a", "2"), ("b", "3")]).2 = some ["a", "b"]
      ∧ commonKeys [("a", "1")] [("a", "2"), ("b", "3")] = ["a"] := by
  constructor <;> rfl

/-- C10: the collision-safe merge is not atomic — when it reports a
collision, the target state has already been extended with every entry of
`addition`, the colliding keys' values overwritten by `addition`'s values,
and all entries of `target` with non-shared keys still present. -/
theorem mergeNoCollision_not_atomic (d1 d2 : Dict) (h1 : DictWF d1) (h2 : DictWF d2)
    (hshared : ∃ k, k ∈ dictKeys d1 ∧ k ∈ dictKeys d2) :
    (updateDictNocollision d1 d2).2.isSome
      ∧ (∀ k v, (k, v) ∈ d2 → ((updateDictNocollision d1 d2).1).lookup k = some v)
      ∧ (∀ k v, (k, v) ∈ d1 → k ∉ dictKeys d2 →
        ((updateDictNocollision d1 d2).1).lookup k = some v) := by
  refine ⟨?_, ?_, ?_⟩
  · rcases hshared with ⟨k, hk1, hk2⟩
    cases hs : (updateDictNocollision d1 d2).2 with
    | none =>
      exact absurd hk1 ((updateDictNocollision_snd_eq_none_iff d1 d2 h2).mp hs k hk2)
    | some ks => rfl
  · intro k v hkv
    rw [updateDictNocollision_fst, lookup_dictUpdate d2 d1 h2 k,
      lookup_of_mem_of_wf d2 k v h2 hkv]
  · intro k v hkv hk2
    rw [updateDictNocollision_fst, lookup_dictUpdate d2 d1 h2 k,
      lookup_eq_none_of_not_mem d2 k hk2]
    exact lookup_of_mem_of_wf d1 k v h1 hkv

/-- Witness for C10 at a concrete colliding pair. -/
theorem mergeNoCollision_not_atomic_witness :
    (updateDictNocollision [("a", "1"), ("c", "0")] [("a", "2")]).2.isSome
      ∧ (∀ k v, (k, v) ∈ ([("a", "2")] : Dict) →
        ((updateDictNocollision [("a", "1"), ("c", "0")] [("a", "2")]).1).lookup k = some v)
      ∧ (∀ k v, (k, v) ∈ ([("a", "1"), ("c", "0")] : Dict) → k ∉ dictKeys [("a", "2")] →
        ((updateDictNocollision [("a", "1"), ("c", "0")] [("a", "2")]).1).lookup k = some v) :=
  mergeNoCollision_not_atomic _ _ (by unfold DictWF dictKeys; decide)
    (by unfold DictWF dictKeys; decide) ⟨"a", by decide, by decide⟩

/-! Validation lemmas. -/

theorem validateFrom_ok_iff :
    ∀ (records : List Dict) (n : Nat) (eks : List String),
      validateFrom n records eks = .ok () ↔ ∀ r ∈ records, dictKeys r = eks
  | [], n, eks => by simp [validateFrom]
  | r :: rest, n, eks => by
    unfold validateFrom
    by_cases h : dictKeys r = eks
    · rw [if_neg (not_not_intro h)]
      rw [validateFrom_ok_iff rest (n + 1) eks]
      constructor
      · intro hall r' hr'
        rcases List.mem_cons.mp hr' with he | hm
        · exact he ▸ h
        · exact hall r' hm
      · intro hall r' hr'
        exact hall r' (List.mem_cons_of_mem r hr')
    · rw [if_pos h]
      constructor
      · intro hc
        exact Except.noConfusion hc
      · intro hall
        exact absurd (hall r (List.mem_cons_self r rest)) h

theorem validateFrom_error_elim :
    ∀ (records : List Dict) (n : Nat) (i : Nat) (ks eks eks' : List String),
      validateFrom n records eks = .error (.mismatch i ks eks') →
      eks' = eks ∧ ∃ j, i = n + j ∧ ∃ r, records[j]? = some r ∧ ks = dictKeys r ∧
        dictKeys r ≠ eks ∧ ∀ j' < j, ∀ r', records[j']? = some r' → dictKeys r' = eks
  | [], n, i, ks, eks, eks', h => by simp [validateFrom] at h
  | r :: rest, n, i, ks, eks, eks', h => by
    unfold validateFrom at h
    by_cases hr : dictKeys r = eks
    · rw [if_neg (not_not_intro hr)] at h
      obtain ⟨heks, j, hij, r', hr', hks, hne, hprev⟩ :=
        validateFrom_error_elim rest (n + 1) i ks eks eks' h
      refine ⟨heks, j + 1, by omega, r', by simpa using hr', hks, hne, ?_⟩
      intro j' hj' r'' hr''
      cases j' with
      | zero =>
        have hrr : r = r'' := by simpa using hr''
        exact hrr ▸ hr
      | succ j'' =>
        exact hprev j'' (by omega) r'' (by simpa using hr'')
    · rw [if_pos hr] at h
      have hinj := Except.error.inj h
      obtain ⟨hi, hks, heks⟩ := ValidationErr.mismatch.inj hinj
      refine ⟨heks.symm, 0, by omega, r, by simp, hks.symm, hr, ?_⟩
      intro j' hj'
      omega

/-- C9: `validate` succeeds iff every record's ordered key sequence equals
`expectedKeys`; otherwise it reports the lowest-index mismatching record,
carrying that record's index and both key sequences, with every earlier
record matching (so later records are never the reported one). -/
theorem validate_first_mismatch (records : List Dict) (eks : List String) :
    (validate records eks = .ok () ↔ ∀ r ∈ records, dictKeys r = eks)
      ∧ (∀ i ks eks', validate records eks = .error (.mismatch i ks eks') →
        eks' = eks ∧ ∃ r, records[i]? = some r ∧ ks = dictKeys r ∧ dictKeys r ≠ eks ∧
          ∀ j < i, ∀ r', records[j]? = some r' → dictKeys r' = eks) := by
  constructor
  · exact validateFrom_ok_iff records 0 eks
  · intro i ks eks' h
    obtain ⟨heks, j, hij, r, hr, hks, hne, hprev⟩ :=
      validateFrom_error_elim records 0 i ks eks eks' h
    have hj : i = j := by omega
    subst hj
    exact ⟨heks, r, hr, hks, hne, hprev⟩

/-- Witness for C9: a mismatch at index 1 is reported with both key
sequences, index 0 having matched. -/
theorem validate_first_mismatch_witness :
    ["a"] = ["a"] ∧ ∃ r, ([[("a", "1")], [("b", "2")]] : List Dict)[1]? = some r ∧
      ["b"] = dictKeys r ∧ dictKeys r ≠ ["a"] ∧
      ∀ j < 1, ∀ r', ([[("a", "1")], [("b", "2")]] : List Dict)[j]? = some r' →
        dictKeys r' = ["a"] :=
  (validate_first_mismatch [[("a", "1")], [("b", "2")]] ["a"]).2 1 ["b"] ["a"] (by rfl)

/-! Reduction lemmas for `Except`. -/

@[simp]
theorem exceptBindF_ok {e a b : Type} (x : a) (f : a → Except e b) :
    (Except.ok x : Except e a).bind f = f x := rfl

@[simp]
theorem exceptBindF_error {e a b : Type} (err : e) (f : a → Except e b) :
    (Except.error err : Except e a).bind f = .error err := rfl

@[simp]
theorem exceptPure_eq_ok {e a : Type} (x : a) : (pure x : Except e a) = Except.ok x := rfl

@[simp]
theorem exceptBind_ok {e a b : Type} (x : a) (f : a → Except e b) :
    (do let y ← Except.ok x; f y) = f x := rfl

@[simp]
theorem exceptBind_error {e a b : Type} (err : e) (f : a → Except e b) :
    (do let y ← (Except.error err : Except e a); f y) = (.error err : Except e b) := rfl

theorem textStep_none (d : Dict) (tag : String) (pfx : Option String)
    (strip rm : Bool) : textStep d tag none pfx strip rm = pure d := rfl

theorem attribStep_nil (d : Dict) (pfx : Option String) (sep : String) :
    attribStep d [] pfx sep = pure d := rfl

/-- On a childless node (or any node, at depth 0) the children branch is
skipped, so flattening is the text step followed by the attribute step. -/
theorem updateDictFromNode_leaf (d : Dict) (tag : String) (txt : Option String)
    (attrib : List (String × String)) (pfx : Option String) (sep : String)
    (md : Option Nat) (strip rm : Bool) (sk : Option String) :
    updateDictFromNode d (.mk tag txt attrib []) pfx sep md strip rm sk
      = (textStep d tag txt pfx strip rm).bind (fun d1 => attribStep d1 attrib pfx sep) := by
  unfold updateDictFromNode
  have hcond : ∀ d2 : Dict,
      (if ((md.isNone || 0 < md.getD 0) && 0 < ([] : List Element).length) = true then
        updateDictFromChildren d2 [] pfx sep (md.map (fun n => n - 1)) strip rm sk
      else pure d2) = pure d2 := by
    intro d2
    simp
  cases hts : textStep d tag txt pfx strip rm with
  | error e => rfl
  | ok d1 =>
    rw [exceptBindF_ok, exceptBindF_ok]
    cases has : attribStep d1 attrib pfx sep with
    | error e => rfl
    | ok d2 =>
      rw [exceptBindF_ok, hcond d2]
      rfl

/-- C3 (first half): flattening with `maxDepth = 0` never descends — it
equals flattening the node with its children removed, for every node and
configuration. -/
theorem depth_zero_ignores_children (d : Dict) (tag : String) (txt : Option String)
    (attrib : List (String × String)) (children : List Element) (pfx : Option String)
    (sep : String) (strip rm : Bool) (sk : Option String) :
    updateDictFromNode d (.mk tag txt attrib children) pfx sep (some 0) strip rm sk
      = updateDictFromNode d (.mk tag txt attrib []) pfx sep (some 0) strip rm sk := by
  unfold updateDictFromNode
  simp

theorem skip_step (d : Dict) (child : Element) (rest : List Element) (pfx : Option String)
    (sep : String) (md : Option Nat) (strip rm : Bool) (sk ctag : String)
    (h : processTag child.tag rm = .ok ctag) :
    updateDictFromChildren d (child :: rest) pfx sep md strip rm (some sk)
      = if ctag = sk then updateDictFromChildren d rest pfx sep md strip rm (some sk)
        else (updateDictFromNode d child (pfx.map (fun p => p ++ sep ++ ctag)) sep md
            strip rm none).bind (fun d' =>
          updateDictFromChildren d' rest pfx sep md strip rm (some sk)) := by
  conv_lhs => rw [updateDictFromChildren]
  rw [h, exceptBindF_ok]
  by_cases hc : ctag = sk
  · subst hc
    rw [if_pos rfl, if_neg (fun hne : some ctag ≠ some ctag => hne rfl)]
    rfl
  · rw [if_neg hc, if_pos (fun he : some sk = some ctag => hc (Option.some.inj he).symm)]

/-- C6 corrected: the exclusion test compares `skipChildTag` with the
output of `_process_tag(child.tag, remove_namespace)`, which is the raw
(namespace-qualified) tag when `remove_namespace` is false — not always the
namespace-stripped tag; and the recursive call always resets `skipChildTag`
to absent. -/
theorem child_skip_criterion :
    (∀ t : String, processTag t false = .ok t)
      ∧ ∀ (d : Dict) (child : Element) (rest : List Element) (pfx : Option String)
          (sep : String) (md : Option Nat) (strip rm : Bool) (sk ctag : String),
          processTag child.tag rm = .ok ctag →
          updateDictFromChildren d (child :: rest) pfx sep md strip rm (some sk)
            = if ctag = sk then updateDictFromChildren d rest pfx sep md strip rm (some sk)
              else (updateDictFromNode d child (pfx.map (fun p => p ++ sep ++ ctag)) sep md
                  strip rm none).bind (fun d' =>
                updateDictFromChildren d' rest pfx sep md strip rm (some sk)) := by
  constructor
  · intro t
    rfl
  · intro d child rest pfx sep md strip rm sk ctag h
    exact skip_step d child rest pfx sep md strip rm sk ctag h

/-- Witness for C6's amended theorem at concrete inputs: a child tagged
`\x7bns\x7dline` is not skipped for `skipChildTag = "line"` when
`removeNamespace = false`, since its processed tag is the raw tag. -/
theorem child_skip_criterion_witness :
    processTag "\x7bns\x7dline" false = .ok "\x7bns\x7dline"
      ∧ updateDictFromChildren [] [Element.mk "\x7bns\x7dline" (some "x") [] []]
          none "_" none false false (some "line")
        = if "\x7bns\x7dline" = "line"
          then updateDictFromChildren [] [] none "_" none false false (some "line")
          else (updateDictFromNode [] (Element.mk "\x7bns\x7dline" (some "x") [] [])
              (Option.map (fun p => p ++ "_" ++ "\x7bns\x7dline") none) "_" none false
              false none).bind (fun d' =>
            updateDictFromChildren d' [] none "_" none false false (some "line")) :=
  ⟨child_skip_criterion.1 "\x7bns\x7dline",
    child_skip_criterion.2 [] (Element.mk "\x7bns\x7dline" (some "x") [] []) [] none "_"
      none false false "line" "\x7bns\x7dline" (by rfl)⟩

/-- C6 counterexample: the claim as stated fails for `removeNamespace =
false` — the child's namespace-stripped tag equals `skipChildTag`, yet the
child is recursed into (its text entry appears in the result, keyed by the
raw tag), so the result is not the empty record the claim demands. -/
theorem child_skip_not_namespace_stripped :
    afterLastClose "\x7bns\x7dline" = "line"
      ∧ updateDictFromNode [] (.mk "r" none [] [.mk "\x7bns\x7dline" (some "x") [] []])
          none "_" none false false (some "line")
        = .ok [("\x7bns\x7dline", "x")]
      ∧ updateDictFromNode [] (.mk "r" none [] [.mk "\x7bns\x7dline" (some "x") [] []])
          none "_" none false false (some "line")
        ≠ .ok ([] : Dict) := by
  refine ⟨by rfl, by rfl, ?_⟩
  intro h
  exact List.noConfusion (Except.ok.inj ((by rfl :
    (.ok [("\x7bns\x7dline", "x")] : Except XMLErr Dict)
      = updateDictFromNode [] (.mk "r" none [] [.mk "\x7bns\x7dline" (some "x") [] []])
        none "_" none false false (some "line")).trans h))

theorem takeWhile_append_stop {a : Type} (p : a → Bool) :
    ∀ (l1 : List a) (x : a) (l2 : List a), (∀ y ∈ l1, p y) → ¬(p x = true) →
      (l1 ++ x :: l2).takeWhile p = l1
  | [], x, l2, _, hx => by
    simp [List.takeWhile, Bool.not_eq_true] at *
    simp [hx]
  | y :: l1, x, l2, h1, hx => by
    have hy : p y = true := h1 y (List.mem_cons_self y l1)
    simp only [List.cons_append, List.takeWhile_cons, hy]
    rw [takeWhile_append_stop p l1 x l2 (fun z hz => h1 z (List.mem_cons_of_mem y hz)) hx]
    simp

/-- Stripping a namespace qualifier from a tag whose local name is
brace-free yields exactly the local name. -/
theorem processTag_strips_namespace (ns lname : String)
    (h : ∀ c ∈ lname.data, ¬(c = '\x7b' ∨ c = '\x7d')) :
    processTag ("\x7b" ++ ns ++ "\x7d" ++ lname) true = .ok lname := by
  have hdata : ("\x7b" ++ ns ++ "\x7d" ++ lname).data
      = ('\x7b' :: ns.data ++ ['\x7d']) ++ lname.data := by
    simp [String.data_append]
  have hafter : afterLastClose ("\x7b" ++ ns ++ "\x7d" ++ lname) = lname := by
    unfold afterLastClose
    rw [hdata, List.reverse_append]
    have hrev : (('\x7b' :: ns.data ++ ['\x7d']) : List Char).reverse
        = '\x7d' :: ('\x7b' :: ns.data).reverse := by
      simp
    rw [hrev, takeWhile_append_stop _ lname.data.reverse '\x7d' _ ?hall ?hstop]
    · rw [List.reverse_reverse]
      cases lname
      rfl
    case hall =>
      intro y hy
      have hym := h y (List.mem_reverse.mp hy)
      simp only [decide_eq_true_eq, ne_eq]
      intro he
      exact hym (Or.inr he)
    case hstop =>
      simp
  unfold processTag
  rw [if_pos rfl, hafter]
  have hany : lname.data.any (fun c => c = '\x7b' || c = '\x7d') = false := by
    rw [List.any_eq_false]
    intro c hc
    have hcm := h c hc
    simp only [Bool.or_eq_true, decide_eq_true_eq]
    exact hcm
  simp [hany]

/-- The text block emits an entry exactly when the (optionally stripped)
text is non-empty; the key is the prefix if present, else the processed
tag. -/
theorem textStep_eq (d : Dict) (tag : String) (txt : Option String)
    (pfx : Option String) (strip rm : Bool) (k : String)
    (hk : (match pfx with
           | some p => (Except.ok p : Except XMLErr String)
           | none => processTag tag rm) = .ok k)
    (hfresh : k ∉ dictKeys d) :
    textStep d tag txt pfx strip rm
      = match txt with
        | none => .ok d
        | some t =>
          if 0 < (if strip then pyStrip t else t).length
          then .ok (d ++ [(k, if strip then pyStrip t else t)])
          else .ok d := by
  have hmerge : ∀ v : String, mergeNoCollision d [(k, v)] = .ok (d ++ [(k, v)]) := by
    intro v
    apply mergeNoCollision_of_disjoint
    · simp [dictKeys]
    · intro a ha
      have haa : a = k := by simpa [dictKeys] using ha
      subst haa
      exact hfresh
  unfold textStep
  cases txt with
  | none => rfl
  | some t =>
    by_cases hlen : 0 < (if strip then pyStrip t else t).length
    · simp only [if_pos hlen]
      cases pfx with
      | some p =>
        have hpk : p = k := Except.ok.inj hk
        subst hpk
        simp [hmerge]
      | none =>
        simp only at hk
        rw [hk, exceptBindF_ok, hmerge]
    · simp only [if_neg hlen]
      rfl

/-- Helper for C7: text-entry behaviour of the flattener on a node with no
attributes and no children. -/
theorem updateDictFromNode_text_only (d : Dict) (tag : String) (txt : Option String)
    (pfx : Option String) (sep : String) (md : Option Nat) (strip rm : Bool)
    (sk : Option String) (k : String)
    (hk : (match pfx with
           | some p => (Except.ok p : Except XMLErr String)
           | none => processTag tag rm) = .ok k)
    (hfresh : k ∉ dictKeys d) :
    updateDictFromNode d (.mk tag txt [] []) pfx sep md strip rm sk
      = match txt with
        | none => .ok d
        | some t =>
          if 0 < (if strip then pyStrip t else t).length
          then .ok (d ++ [(k, if strip then pyStrip t else t)])
          else .ok d := by
  rw [updateDictFromNode_leaf, textStep_eq d tag txt pfx strip rm k hk hfresh]
  cases txt with
  | none => simp [attribStep_nil]
  | some t =>
    by_cases hlen : 0 < (if strip then pyStrip t else t).length
    · simp only [if_pos hlen]
      simp [attribStep_nil]
    · simp only [if_neg hlen]
      simp [attribStep_nil]

/-- C7: flattening emits a text entry iff the node's text is non-absent and
non-empty after optional stripping (stripping exactly when `stripText` is
set); the entry's key is the prefix when present, otherwise the node's own
tag (namespace-stripped when `removeNamespace` is set, which turns
`\x7bns\x7dlocal` into `local`), and its value is the (optionally stripped)
text. -/
theorem flatten_text_entry :
    (∀ (ns lname : String), (∀ c ∈ lname.data, ¬(c = '\x7b' ∨ c = '\x7d')) →
        processTag ("\x7b" ++ ns ++ "\x7d" ++ lname) true = .ok lname)
      ∧ ∀ (d : Dict) (tag : String) (txt : Option String) (pfx : Option String)
          (sep : String) (md : Option Nat) (strip rm : Bool) (sk : Option String)
          (k : String),
          (match pfx with
           | some p => (Except.ok p : Except XMLErr String)
           | none => processTag tag rm) = .ok k →
          k ∉ dictKeys d →
          updateDictFromNode d (.mk tag txt [] []) pfx sep md strip rm sk
            = match txt with
              | none => .ok d
              | some t =>
                if 0 < (if strip then pyStrip t else t).length
                then .ok (d ++ [(k, if strip then pyStrip t else t)])
                else .ok d :=
  ⟨processTag_strips_namespace,
    fun d tag txt pfx sep md strip rm sk k hk hfresh =>
      updateDictFromNode_text_only d tag txt pfx sep md strip rm sk k hk hfresh⟩

/-- Witness for C7: the spec's whitespace example — text `"  hello \n"`
with stripping on yields value `"hello"` under the node's own tag. -/
theorem flatten_text_entry_witness :
    processTag ("\x7b" ++ "ns" ++ "\x7d" ++ "item") true = .ok "item"
      ∧ updateDictFromNode [] (.mk "a" (some "  hello \n") [] []) none "_" none true true none
        = match some "  hello \n" with
          | none => .ok ([] : Dict)
          | some t =>
            if 0 < (if true then pyStrip t else t).length
            then .ok ([] ++ [("a", if true then pyStrip t else t)])
            else .ok ([] : Dict) :=
  ⟨flatten_text_entry.1 "ns" "item" (by decide),
    flatten_text_entry.2 [] "a" (some "  hello \n") none "_" none true true none "a"
      (by rfl) (by decide)⟩

/-- C8: flattening a node with attributes (and no text, no children) emits
one entry per attribute in order, keyed by the attribute name, or by
`prefix + sep + name` when a prefix is present; values are taken verbatim —
`strip` is universally quantified on the left and absent from the result,
so attribute values are never stripped. -/
theorem flatten_attribute_entries (d : Dict) (tag : String)
    (attrib : List (String × String)) (pfx : Option String) (sep : String)
    (md : Option Nat) (strip rm : Bool) (sk : Option String)
    (hnd : (attrib.map Prod.fst).Nodup)
    (hfresh : ∀ q ∈ (attrib.map (fun kv => (attrKey pfx sep kv.1, kv.2))).map Prod.fst,
      q ∉ dictKeys d) :
    updateDictFromNode d (.mk tag none attrib []) pfx sep md strip rm sk
      = .ok (d ++ attrib.map (fun kv => (attrKey pfx sep kv.1, kv.2))) := by
  have hinj : Function.Injective (attrKey pfx sep) := by
    intro k1 k2 he
    cases pfx with
    | none => exact he
    | some p =>
      have hd := congrArg String.data he
      simp only [attrKey, String.data_append] at hd
      exact String.ext (by simpa using hd)
  have hmapkeys : (attrib.map (fun kv => (attrKey pfx sep kv.1, kv.2))).map Prod.fst
      = (attrib.map Prod.fst).map (attrKey pfx sep) := by
    simp [List.map_map]
  have hndm : ((attrib.map (fun kv => (attrKey pfx sep kv.1, kv.2))).map Prod.fst).Nodup := by
    rw [hmapkeys]
    exact hnd.map hinj
  have hofl : dictOfList (attrib.map (fun kv => (attrKey pfx sep kv.1, kv.2)))
      = attrib.map (fun kv => (attrKey pfx sep kv.1, kv.2)) :=
    dictOfList_of_nodup _ hndm
  have hmerge : mergeNoCollision d
      (dictOfList (attrib.map (fun kv => (attrKey pfx sep kv.1, kv.2))))
      = .ok (d ++ attrib.map (fun kv => (attrKey pfx sep kv.1, kv.2))) := by
    rw [hofl]
    exact mergeNoCollision_of_disjoint _ _ hndm hfresh
  rw [updateDictFromNode_leaf, textStep_none, exceptPure_eq_ok, exceptBindF_ok]
  unfold attribStep
  cases attrib with
  | nil => simp
  | cons a rest =>
    rw [if_pos (by simp : 0 < (a :: rest).length)]
    exact hmerge

/-- Witness for C8 at concrete inputs: two attributes, a prefix, and a
value holding whitespace that survives verbatim under `strip = true`. -/
theorem flatten_attribute_entries_witness :
    updateDictFromNode [] (.mk "a" none [("x", "1"), ("y", " 2 ")] []) (some "r") "_"
        none true true none
      = .ok ([] ++ [("x", "1"), ("y", " 2 ")].map
          (fun kv => (attrKey (some "r") "_" kv.1, kv.2))) :=
  flatten_attribute_entries [] "a" [("x", "1"), ("y", " 2 ")] (some "r") "_" none true
    true none (by decide) (by decide)

theorem textStep_extends (d : Dict) (tag : String) (txt : Option String)
    (pfx : Option String) (strip rm : Bool) (d1 : Dict)
    (h : textStep d tag txt pfx strip rm = .ok d1) : ∃ t, d1 = d ++ t := by
  unfold textStep at h
  cases txt with
  | none =>
    exact ⟨[], by simpa using (Except.ok.inj h).symm⟩
  | some t =>
    simp only at h
    by_cases hlen : 0 < (if strip then pyStrip t else t).length
    · rw [if_pos hlen] at h
      cases pfx with
      | none =>
        cases hpt : processTag tag rm with
        | error e =>
          rw [hpt] at h
          simp at h
        | ok k =>
          rw [hpt, exceptBindF_ok] at h
          obtain ⟨-, he⟩ := mergeNoCollision_ok_elim d
            [(k, if strip then pyStrip t else t)] d1 (by simp [dictKeys]) h
          exact ⟨_, he⟩
      | some p =>
        simp only [exceptPure_eq_ok, exceptBindF_ok] at h
        obtain ⟨-, he⟩ := mergeNoCollision_ok_elim d
          [(p, if strip then pyStrip t else t)] d1 (by simp [dictKeys]) h
        exact ⟨_, he⟩
    · rw [if_neg hlen] at h
      exact ⟨[], by simpa using (Except.ok.inj h).symm⟩

theorem attribStep_extends (d : Dict) (attrib : List (String × String))
    (pfx : Option String) (sep : String) (d2 : Dict)
    (h : attribStep d attrib pfx sep = .ok d2) : ∃ t, d2 = d ++ t := by
  unfold attribStep at h
  by_cases hal : 0 < attrib.length
  · rw [if_pos hal] at h
    obtain ⟨-, he⟩ := mergeNoCollision_ok_elim d _ d2 (dictWF_dictOfList _) h
    exact ⟨_, he⟩
  · rw [if_neg hal] at h
    exact ⟨[], by simpa using (Except.ok.inj h).symm⟩

mutual
/-- A successful flattening call only appends entries to the accumulating
dict. -/
theorem updateDictFromNode_extends :
    ∀ (d : Dict) (node : Element) (pfx : Option String) (sep : String)
      (md : Option Nat) (strip rm : Bool) (sk : Option String) (d' : Dict),
      updateDictFromNode d node pfx sep md strip rm sk = .ok d' → ∃ t, d' = d ++ t
  | d, .mk tag txt attrib children, pfx, sep, md, strip, rm, sk, d', h => by
    unfold updateDictFromNode at h
    cases h1 : textStep d tag txt pfx strip rm with
    | error e =>
      rw [h1] at h
      simp at h
    | ok d1 =>
      rw [h1, exceptBindF_ok] at h
      obtain ⟨t1, ht1⟩ := textStep_extends d tag txt pfx strip rm d1 h1
      cases h2 : attribStep d1 attrib pfx sep with
      | error e =>
        rw [h2] at h
        simp at h
      | ok d2 =>
        rw [h2, exceptBindF_ok] at h
        obtain ⟨t2, ht2⟩ := attribStep_extends d1 attrib pfx sep d2 h2
        by_cases hcond : ((md.isNone || 0 < md.getD 0) && 0 < children.length) = true
        · rw [if_pos hcond] at h
          obtain ⟨t3, ht3⟩ := updateDictFromChildren_extends d2 children pfx sep
            (md.map (fun n => n - 1)) strip rm sk d' h
          exact ⟨t1 ++ t2 ++ t3, by simp [ht3, ht2, ht1]⟩
        · rw [if_neg hcond] at h
          have hd' : d2 = d' := by simpa using h
          exact ⟨t1 ++ t2, by simp [← hd', ht2, ht1]⟩

theorem updateDictFromChildren_extends :
    ∀ (d : Dict) (children : List Element) (pfx : Option String) (sep : String)
      (md : Option Nat) (strip rm : Bool) (sk : Option String) (d' : Dict),
      updateDictFromChildren d children pfx sep md strip rm sk = .ok d' → ∃ t, d' = d ++ t
  | d, [], pfx, sep, md, strip, rm, sk, d', h => by
    unfold updateDictFromChildren at h
    exact ⟨[], by simpa using (Except.ok.inj h).symm⟩
  | d, child :: rest, pfx, sep, md, strip, rm, sk, d', h => by
    unfold updateDictFromChildren at h
    cases hpt : processTag child.tag rm with
    | error e =>
      rw [hpt] at h
      simp at h
    | ok ctag =>
      rw [hpt, exceptBindF_ok] at h
      cases hmid : (if sk ≠ some ctag then
          updateDictFromNode d child (pfx.map (fun p => p ++ sep ++ ctag)) sep md
            strip rm none
        else pure d) with
      | error e =>
        rw [hmid] at h
        simp at h
      | ok dmid =>
        rw [hmid, exceptBindF_ok] at h
        obtain ⟨t2, ht2⟩ := updateDictFromChildren_extends dmid rest pfx sep md
          strip rm sk d' h
        by_cases hskip : sk ≠ some ctag
        · rw [if_pos hskip] at hmid
          obtain ⟨t1, ht1⟩ := updateDictFromNode_extends d child
            (pfx.map (fun p => p ++ sep ++ ctag)) sep md strip rm none dmid hmid
          exact ⟨t1 ++ t2, by simp [ht2, ht1]⟩
        · rw [if_neg hskip] at hmid
          have hd : d = dmid := by simpa using hmid
          exact ⟨t2, by simp [ht2, ← hd]⟩
end

/-! Lemmas turning the record-accumulating folds of `parse` into maps. -/

theorem foldlM_congr {e a b : Type} (f g : b → a → Except e b)
    (h : ∀ x y, f x y = g x y) :
    ∀ (l : List a) (acc : b), l.foldlM f acc = l.foldlM g acc
  | [], _ => rfl
  | x :: l, acc => by
    rw [List.foldlM_cons, List.foldlM_cons, h acc x]
    cases g acc x with
    | error e => rfl
    | ok b' =>
      show (Except.ok b').bind (fun b' => l.foldlM f b')
        = (Except.ok b').bind (fun b' => l.foldlM g b')
      rw [exceptBindF_ok, exceptBindF_ok, foldlM_congr f g h l b']

theorem foldlM_snoc {e a b : Type} (f : a → Except e b) :
    ∀ (l : List a) (acc : List b),
      l.foldlM (fun recs x => (f x).bind (fun y => pure (recs ++ [y]))) acc
        = (mapExcept f l).bind (fun ys => pure (acc ++ ys))
  | [], acc => by simp [mapExcept]
  | x :: l, acc => by
    rw [List.foldlM_cons]
    cases hfx : f x with
    | error err => simp [mapExcept, hfx]
    | ok y =>
      rw [exceptBindF_ok, exceptPure_eq_ok, exceptBind_ok, foldlM_snoc f l (acc ++ [y])]
      simp only [mapExcept, hfx, exceptBindF_ok]
      cases mapExcept f l with
      | error err => rfl
      | ok ys => simp

theorem foldlM_flat {e a b : Type} (H : a → Except e (List b)) :
    ∀ (l : List a) (acc : List b),
      l.foldlM (fun recs x => (H x).bind (fun ys => pure (recs ++ ys))) acc
        = (mapExcept H l).bind (fun yss => pure (acc ++ yss.flatten))
  | [], acc => by simp [mapExcept]
  | x :: l, acc => by
    rw [List.foldlM_cons]
    cases hx : H x with
    | error err => simp [mapExcept, hx]
    | ok ys =>
      rw [exceptBindF_ok, exceptPure_eq_ok, exceptBind_ok, foldlM_flat H l (acc ++ ys)]
      simp only [mapExcept, hx, exceptBindF_ok]
      cases mapExcept H l with
      | error err => rfl
      | ok yss => simp

/-- The row/subrow loops of `parse`, restructured: one list of records per
row node (in document order), each a list with one record per matching
subrow child when `subrowTag` is set, flattened in order. -/
theorem parse_eq_structured (tree : Element) (rowsPath : List String)
    (subrowTag : Option String) (metaPaths : List (List String))
    (rowsPfx metaPfx : Bool) (sep : String) (rmd mmd : Option Nat)
    (stripText : Bool) (ns : String) (rmNs : Bool) :
    parse tree rowsPath subrowTag metaPaths rowsPfx metaPfx sep rmd mmd stripText ns rmNs
      = (parseMeta tree metaPaths metaPfx sep mmd stripText ns rmNs).bind (fun metaD =>
          (mapExcept (fun rNode =>
            (updateDictFromNode metaD rNode
                (if rowsPfx then listToPfx rowsPath sep else none)
                sep rmd stripText rmNs subrowTag).bind (fun rowD =>
              match subrowTag with
              | none => pure [rowD]
              | some st =>
                mapExcept (fun srNode => updateDictFromNode rowD srNode
                    (if rowsPfx then listToPfx rowsPath sep else none) sep rmd
                    stripText rmNs none)
                  (findall rNode ns [st])))
            (findall tree ns rowsPath)).bind (fun rss => pure rss.flatten)) := by
  unfold parse
  cases parseMeta tree metaPaths metaPfx sep mmd stripText ns rmNs with
  | error e => rfl
  | ok metaD =>
    rw [exceptBindF_ok, exceptBindF_ok]
    have hbody : ∀ (records : List Dict) (rNode : Element),
        (updateDictFromNode metaD rNode
            (if rowsPfx then listToPfx rowsPath sep else none)
            sep rmd stripText rmNs subrowTag).bind (fun rowD =>
          match subrowTag with
          | none => pure (records ++ [rowD])
          | some st =>
            (findall rNode ns [st]).foldlM
              (fun recs srNode =>
                (updateDictFromNode rowD srNode
                  (if rowsPfx then listToPfx rowsPath sep else none) sep rmd
                  stripText rmNs none).bind (fun srD => pure (recs ++ [srD])))
              records)
          = ((updateDictFromNode metaD rNode
              (if rowsPfx then listToPfx rowsPath sep else none)
              sep rmd stripText rmNs subrowTag).bind (fun rowD =>
            match subrowTag with
            | none => pure [rowD]
            | some st =>
              mapExcept (fun srNode => updateDictFromNode rowD srNode
                  (if rowsPfx then listToPfx rowsPath sep else none) sep rmd
                  stripText rmNs none)
                (findall rNode ns [st]))).bind (fun ys => pure (records ++ ys)) := by
      intro records rNode
      cases hu : updateDictFromNode metaD rNode
          (if rowsPfx then listToPfx rowsPath sep else none)
          sep rmd stripText rmNs subrowTag with
      | error e => rfl
      | ok rowD =>
        rw [exceptBindF_ok, exceptBindF_ok]
        cases subrowTag with
        | none => simp
        | some st =>
          dsimp only
          rw [foldlM_snoc]
    rw [foldlM_congr _ _ hbody (findall tree ns rowsPath) [], foldlM_flat]
    cases mapExcept (fun rNode =>
        (updateDictFromNode metaD rNode
            (if rowsPfx then listToPfx rowsPath sep else none)
            sep rmd stripText rmNs subrowTag).bind (fun rowD =>
          match subrowTag with
          | none => pure [rowD]
          | some st =>
            mapExcept (fun srNode => updateDictFromNode rowD srNode
                (if rowsPfx then listToPfx rowsPath sep else none) sep rmd
                stripText rmNs none)
              (findall rNode ns [st])))
        (findall tree ns rowsPath) with
    | error e => rfl
    | ok rss => simp

/-- C4: with `subrowTag` present, `parse` emits, per row node in document
order, exactly one record per child matching the subrow path (in document
order) — a row with no matching child contributes the empty list to the
flattened output — and each record is built by flattening the row (subrow
children skipped) on top of the metadata record and then the subrow node on
top of that, all through the collision-checked merge. -/
theorem parse_subrow_expansion (tree : Element) (rowsPath : List String) (st : String)
    (metaPaths : List (List String)) (rowsPfx metaPfx : Bool) (sep : String)
    (rmd mmd : Option Nat) (stripText : Bool) (ns : String) (rmNs : Bool) :
    parse tree rowsPath (some st) metaPaths rowsPfx metaPfx sep rmd mmd stripText ns rmNs
      = (parseMeta tree metaPaths metaPfx sep mmd stripText ns rmNs).bind (fun metaD =>
          (mapExcept (fun rNode =>
            (updateDictFromNode metaD rNode
                (if rowsPfx then listToPfx rowsPath sep else none)
                sep rmd stripText rmNs (some st)).bind (fun rowD =>
              mapExcept (fun srNode => updateDictFromNode rowD srNode
                  (if rowsPfx then listToPfx rowsPath sep else none) sep rmd
                  stripText rmNs none)
                (findall rNode ns [st])))
            (findall tree ns rowsPath)).bind (fun rss => pure rss.flatten)) :=
  parse_eq_structured tree rowsPath (some st) metaPaths rowsPfx metaPfx sep rmd mmd
    stripText ns rmNs

/-- Members of a successful `mapExcept` run come from successful
applications of the function to members of the input list. -/
theorem mapExcept_ok_mem {e a b : Type} (f : a → Except e b) :
    ∀ (l : List a) (ys : List b), mapExcept f l = .ok ys →
      ∀ y ∈ ys, ∃ x ∈ l, f x = .ok y
  | [], ys, h => by
    have hys : ([] : List b) = ys := by simpa [mapExcept] using h
    subst hys
    intro y hy
    exact absurd hy (List.not_mem_nil y)
  | x :: l, ys, h => by
    unfold mapExcept at h
    cases hfx : f x with
    | error err =>
      rw [hfx] at h
      simp at h
    | ok y0 =>
      rw [hfx, exceptBindF_ok] at h
      cases hrest : mapExcept f l with
      | error err =>
        rw [hrest] at h
        simp at h
      | ok ys0 =>
        rw [hrest, exceptBindF_ok] at h
        have hys : y0 :: ys0 = ys := by simpa using h
        subst hys
        intro y hy
        rcases List.mem_cons.mp hy with he | hm
        · exact ⟨x, List.mem_cons_self x l, he ▸ hfx⟩
        · obtain ⟨x', hx', hfx'⟩ := mapExcept_ok_mem f l ys0 hrest y hm
          exact ⟨x', List.mem_cons_of_mem x hx', hfx'⟩

theorem bind_flatten_ok {e b : Type} (m : Except e (List (List b))) (records : List b)
    (h : m.bind (fun rss => pure rss.flatten) = .ok records) :
    ∃ rss, m = .ok rss ∧ records = rss.flatten := by
  cases m with
  | error err => simp at h
  | ok rss =>
    rw [exceptBindF_ok] at h
    exact ⟨rss, rfl, by simpa using h.symm⟩

/-- C5: each metadata path resolves to the first matching node; an absent
path contributes nothing and raises no error; and on success every emitted
record literally extends the accumulated metadata record, so every record
contains every metadata field. -/
theorem metadata_resolution_and_broadcast :
    (∀ (tree : Element) (d : Dict) (mPath : List String) (metaPfx : Bool) (sep : String)
        (mmd : Option Nat) (stripText : Bool) (ns : String) (rmNs : Bool),
        find tree ns mPath = none →
        metaStep tree d mPath metaPfx sep mmd stripText ns rmNs = .ok d)
      ∧ (∀ (tree : Element) (d : Dict) (mPath : List String) (metaPfx : Bool) (sep : String)
          (mmd : Option Nat) (stripText : Bool) (ns : String) (rmNs : Bool)
          (m : Element) (rest2 : List Element),
          findall tree ns mPath = m :: rest2 →
          metaStep tree d mPath metaPfx sep mmd stripText ns rmNs
            = updateDictFromNode d m (if metaPfx then listToPfx mPath sep else none)
                sep mmd stripText rmNs none)
      ∧ (∀ (tree : Element) (rowsPath : List String) (subrowTag : Option String)
          (metaPaths : List (List String)) (rowsPfx metaPfx : Bool) (sep : String)
          (rmd mmd : Option Nat) (stripText : Bool) (ns : String) (rmNs : Bool)
          (records : List Dict) (metaD : Dict),
          parse tree rowsPath subrowTag metaPaths rowsPfx metaPfx sep rmd mmd
            stripText ns rmNs = .ok records →
          parseMeta tree metaPaths metaPfx sep mmd stripText ns rmNs = .ok metaD →
          ∀ rec ∈ records, ∃ t, rec = metaD ++ t) := by
  refine ⟨?_, ?_, ?_⟩
  · intro tree d mPath metaPfx sep mmd stripText ns rmNs hfind
    unfold metaStep
    rw [hfind]
    rfl
  · intro tree d mPath metaPfx sep mmd stripText ns rmNs m rest2 hfindall
    unfold metaStep
    unfold find
    rw [hfindall]
    rfl
  · intro tree rowsPath subrowTag metaPaths rowsPfx metaPfx sep rmd mmd stripText ns
      rmNs records metaD hparse hmeta rec hrec
    rw [parse_eq_structured, hmeta, exceptBindF_ok] at hparse
    obtain ⟨rss, hmap, hrecords⟩ := bind_flatten_ok _ _ hparse
    subst hrecords
    obtain ⟨rs, hrs, hrecin⟩ := List.mem_flatten.mp hrec
    obtain ⟨rNode, -, hF⟩ := mapExcept_ok_mem _ _ _ hmap rs hrs
    cases hu : updateDictFromNode metaD rNode
        (if rowsPfx then listToPfx rowsPath sep else none)
        sep rmd stripText rmNs subrowTag with
    | error err =>
      rw [hu] at hF
      simp at hF
    | ok rowD =>
      rw [hu, exceptBindF_ok] at hF
      obtain ⟨t1, ht1⟩ := updateDictFromNode_extends metaD rNode
        (if rowsPfx then listToPfx rowsPath sep else none)
        sep rmd stripText rmNs subrowTag rowD hu
      cases subrowTag with
      | none =>
        have hrs' : [rowD] = rs := by simpa using hF
        rw [← hrs'] at hrecin
        have hre : rec = rowD := by simpa using hrecin
        exact ⟨t1, hre.trans ht1⟩
      | some st =>
        simp only at hF
        obtain ⟨srNode, -, hsr⟩ := mapExcept_ok_mem _ _ _ hF rec hrecin
        obtain ⟨t2, ht2⟩ := updateDictFromNode_extends rowD srNode
          (if rowsPfx then listToPfx rowsPath sep else none)
          sep rmd stripText rmNs none rec hsr
        exact ⟨t1 ++ t2, by rw [ht2, ht1, List.append_assoc]⟩

/-- Witness for C5: the spec's metadata example — one metadata path
resolving to `<meta><ver>3</ver></meta>` and three row nodes; an absent
path is silent, the first matching node is used, and a produced record
extends the metadata record `ver = 3`. -/
theorem metadata_resolution_and_broadcast_witness :
    metaStep (Element.mk "root" none []
        [Element.mk "meta" none [] [Element.mk "ver" (some "3") [] []],
         Element.mk "r" (some "v1") [] [],
         Element.mk "r" (some "v2") [] [],
         Element.mk "r" (some "v3") [] []])
        [("z", "0")] ["missing"] false "_" none true "*" true = .ok [("z", "0")]
      ∧ metaStep (Element.mk "root" none []
          [Element.mk "meta" none [] [Element.mk "ver" (some "3") [] []],
           Element.mk "r" (some "v1") [] [],
           Element.mk "r" (some "v2") [] [],
           Element.mk "r" (some "v3") [] []])
          [] ["meta"] false "_" none true "*" true
        = updateDictFromNode []
            (Element.mk "meta" none [] [Element.mk "ver" (some "3") [] []])
            (if false then listToPfx ["meta"] "_" else none) "_" none true true none
      ∧ ∃ t, [("ver", "3"), ("r", "v1")] = [("ver", "3")] ++ t :=
  ⟨metadata_resolution_and_broadcast.1
      (Element.mk "root" none []
        [Element.mk "meta" none [] [Element.mk "ver" (some "3") [] []],
         Element.mk "r" (some "v1") [] [],
         Element.mk "r" (some "v2") [] [],
         Element.mk "r" (some "v3") [] []])
      [("z", "0")] ["missing"] false "_" none true "*" true (by rfl),
    metadata_resolution_and_broadcast.2.1
      (Element.mk "root" none []
        [Element.mk "meta" none [] [Element.mk "ver" (some "3") [] []],
         Element.mk "r" (some "v1") [] [],
         Element.mk "r" (some "v2") [] [],
         Element.mk "r" (some "v3") [] []])
      [] ["meta"] false "_" none true "*" true
      (Element.mk "meta" none [] [Element.mk "ver" (some "3") [] []]) [] (by rfl),
    metadata_resolution_and_broadcast.2.2
      (Element.mk "root" none []
        [Element.mk "meta" none [] [Element.mk "ver" (some "3") [] []],
         Element.mk "r" (some "v1") [] [],
         Element.mk "r" (some "v2") [] [],
         Element.mk "r" (some "v3") [] []])
      ["r"] none [["meta"]] false false "_" none none true "*" true
      [[("ver", "3"), ("r", "v1")], [("ver", "3"), ("r", "v2")],
        [("ver", "3"), ("r", "v3")]]
      [("ver", "3")] (by rfl) (by rfl) [("ver", "3"), ("r", "v1")] (by decide)⟩

theorem mapExcept_congr {e a b : Type} (f g : a → Except e b) :
    ∀ l : List a, (∀ x ∈ l, f x = g x) → mapExcept f l = mapExcept g l
  | [], _ => rfl
  | x :: l, h => by
    unfold mapExcept
    rw [h x (List.mem_cons_self x l),
      mapExcept_congr f g l (fun y hy => h y (List.mem_cons_of_mem x hy))]

theorem mapExcept_singleton {e a b : Type} (u : a → Except e b) :
    ∀ l : List a,
      mapExcept (fun x => (u x).bind (fun y => pure [y])) l
        = (mapExcept u l).bind (fun ys => pure (ys.map (fun y => [y])))
  | [] => rfl
  | x :: l => by
    unfold mapExcept
    cases hx : u x with
    | error err => rfl
    | ok y =>
      rw [exceptBindF_ok, exceptPure_eq_ok, exceptBindF_ok, exceptBindF_ok,
        mapExcept_singleton u l]
      cases mapExcept u l with
      | error err => rfl
      | ok ys => simp

theorem flatten_map_singleton {b : Type} : ∀ ys : List b,
    (ys.map (fun y => [y])).flatten = ys
  | [] => rfl
  | y :: ys => by simp [flatten_map_singleton ys]

/-- C3 counterexample: with `subrowTag` set, `parse` at `rowsMaxDepth = 0`
emits records containing keys derived from a descendant of the row — the
subrow's own text key — although flattening the row itself at depth 0
yields nothing. -/
theorem parse_depth_zero_subrow_cex :
    parse (.mk "root" none [] [.mk "r" none [] [.mk "line" (some "x") [] []]])
        ["r"] (some "line") [] false false "_" (some 0) none true "*" true
      = .ok [[("line", "x")]]
      ∧ updateDictFromNode [] (.mk "r" none [] [.mk "line" (some "x") [] []])
          none "_" (some 0) true true none = .ok []
      ∧ "line" ∈ dictKeys [("line", "x")] := by
  refine ⟨by rfl, by rfl, by decide⟩

/-- C3 (amended): flattening with `maxDepth = 0` emits only entries from
the node's own text and attributes, never descending into children; hence
`parse` with `rowsMaxDepth = 0` and no `subrowTag` produces records built
solely from each row's own tag, text and attributes on top of the metadata
record.  (With a `subrowTag`, each record additionally holds the matched
subrow's own depth-0 fields.) -/
theorem flatten_depth_zero_own_fields :
    (∀ (d : Dict) (tag : String) (txt : Option String)
        (attrib : List (String × String)) (children : List Element)
        (pfx : Option String) (sep : String) (strip rm : Bool) (sk : Option String),
        updateDictFromNode d (.mk tag txt attrib children) pfx sep (some 0) strip rm sk
          = updateDictFromNode d (.mk tag txt attrib []) pfx sep (some 0) strip rm sk)
      ∧ ∀ (tree : Element) (rowsPath : List String) (metaPaths : List (List String))
          (rowsPfx metaPfx : Bool) (sep : String) (mmd : Option Nat)
          (stripText : Bool) (ns : String) (rmNs : Bool),
          parse tree rowsPath none metaPaths rowsPfx metaPfx sep (some 0) mmd
            stripText ns rmNs
            = (parseMeta tree metaPaths metaPfx sep mmd stripText ns rmNs).bind
                (fun metaD =>
                  mapExcept (fun rNode =>
                    updateDictFromNode metaD
                      (Element.mk rNode.tag rNode.text rNode.attrib [])
                      (if rowsPfx then listToPfx rowsPath sep else none)
                      sep (some 0) stripText rmNs none)
                    (findall tree ns rowsPath)) := by
  constructor
  · intro d tag txt attrib children pfx sep strip rm sk
    exact depth_zero_ignores_children d tag txt attrib children pfx sep strip rm sk
  · intro tree rowsPath metaPaths rowsPfx metaPfx sep mmd stripText ns rmNs
    rw [parse_eq_structured]
    cases parseMeta tree metaPaths metaPfx sep mmd stripText ns rmNs with
    | error err => rfl
    | ok metaD =>
      rw [exceptBindF_ok, exceptBindF_ok]
      have hcong : mapExcept (fun rNode =>
          (updateDictFromNode metaD rNode
              (if rowsPfx then listToPfx rowsPath sep else none)
              sep (some 0) stripText rmNs none).bind (fun rowD => pure [rowD]))
            (findall tree ns rowsPath)
          = mapExcept (fun rNode =>
              (updateDictFromNode metaD
                  (Element.mk rNode.tag rNode.text rNode.attrib [])
                  (if rowsPfx then listToPfx rowsPath sep else none)
                  sep (some 0) stripText rmNs none).bind (fun rowD => pure [rowD]))
            (findall tree ns rowsPath) := by
        apply mapExcept_congr
        intro rNode _
        cases rNode with
        | mk tag txt attrib children =>
          rw [depth_zero_ignores_children]
          rfl
      rw [hcong, mapExcept_singleton]
      cases mapExcept (fun rNode =>
          updateDictFromNode metaD (Element.mk rNode.tag rNode.text rNode.attrib [])
            (if rowsPfx then listToPfx rowsPath sep else none)
            sep (some 0) stripText rmNs none)
          (findall tree ns rowsPath) with
      | error err => rfl
      | ok ys => simp [flatten_map_singleton]

example : pyStrip "  hello \n" = "hello" := by rfl

example : afterLastClose "\x7bns\x7dline" = "line" := by rfl

example : processTag "\x7bns\x7dline" true = .ok "line" := by rfl

example :
    updateDictFromNode [] (.mk "a" (some " x ") [("b", "1")] [.mk "c" (some "y") [] []])
      none "_" none true true none = .ok [("a", "x"), ("b", "1"), ("c", "y")] := by rfl
